import Mathlib

/-!
Shallow embedding of the tabular reinforcement-learning engine
(`rl/policy.py`, `rl/sample.py`, `rl/examples/utils.py`, `rl/algorithms/*.py`).

Modelling conventions:
* Scalars (rewards, probabilities, values) are `ℚ`.
* An `Environment` with deterministic dynamics is a record holding the
  current state, a transition/reward function, the declared state and
  action lists, and the terminal predicate.  This matches the contract in
  `rl/environment.py` realised by the (deterministic) `Maze`.
* Randomness in action selection (`policy.get_action`) is abstracted as an
  oracle `π : ℕ → S → A` consuming an explicit draw counter, so theorems
  quantify over every possible random outcome.
* Python dictionaries appear either as association lists (when insertion
  order matters) or as total functions (value/action-value tables, whose
  lookups are always at keys initialised up front).
-/

namespace RL

/-- Deterministic environment (the `Environment` contract of
`rl/environment.py`, with the dynamics of a concrete instance exposed as a
`step` function returning successor state and reward). -/
structure Env (S A : Type) where
  cur : S
  step : S → A → S × ℚ
  states : List S
  actions : List A
  terminal : S → Bool

/-- `Environment.get_current_state`. -/
def get_current_state {S A : Type} (e : Env S A) : S := e.cur

/-- `Environment.update_state` (the claims never exercise the
out-of-domain error branch, so the embedding is the successful path). -/
def update_state {S A : Type} (e : Env S A) (s : S) : Env S A :=
  { e with cur := s }

/-- `Environment.take_action`: mutates the current state along the
transition and returns the reward, as a state-passing function. -/
def take_action {S A : Type} (e : Env S A) (a : A) : Env S A × ℚ :=
  let sr := e.step e.cur a
  ({ e with cur := sr.1 }, sr.2)

/-- `Environment.at_terminal_state`. -/
def at_terminal_state {S A : Type} (e : Env S A) : Bool :=
  e.terminal e.cur

/-- Default numeric tolerance used by the convergence utilities
(`tolerance: float = 0.01` in `rl/examples/utils.py`). -/
def defaultTolerance : ℚ := 1 / 100

/-- `np.isclose(a, b)` with numpy's default `rtol = 1e-5`, `atol = 1e-8`:
`|a - b| <= atol + rtol * |b|`. -/
def isclose (a b : ℚ) : Bool :=
  |a - b| ≤ 1 / 100000000 + (1 / 100000) * |b|

/-- `have_state_values_converged` (`rl/examples/utils.py`): iterates the
states of the new table and returns `False` as soon as
`new[s] - old[s] > tolerance`; otherwise `True`.  The dict keys of the new
table are passed as the list `states`. -/
def have_state_values_converged {S : Type} (states : List S)
    (old_state_values new_state_values : S → ℚ) (tolerance : ℚ) : Bool :=
  states.all fun s =>
    decide (new_state_values s - old_state_values s ≤ tolerance)

/-- `has_policy_converged` (`rl/examples/utils.py`): iterates the new
policy's states and actions and returns `False` as soon as
`new[s][a] - old[s][a] > tolerance`; otherwise `True`. -/
def has_policy_converged {S A : Type} (states : List S) (actions : List A)
    (old_policy new_policy : S → A → ℚ) (tolerance : ℚ) : Bool :=
  states.all fun s => actions.all fun a =>
    decide (new_policy s a - old_policy s a ≤ tolerance)

/-- `calculate_action_value` (`rl/examples/utils.py`): sets the
environment to `state`, takes `action`, reads the successor state, and
returns `r + γ·V(s')`.  The environment is threaded explicitly, so the
returned `Env` is the environment as the call leaves it. -/
def calculate_action_value {S A : Type} (state : S) (action : A)
    (environment : Env S A) (state_values : S → ℚ)
    (discount_factor : ℚ) : Env S A × ℚ :=
  let env1 := update_state environment state
  let er := take_action env1 action
  let s_prime := get_current_state er.1
  (er.1, er.2 + discount_factor * state_values s_prime)

/-- `calculate_state_value` (`rl/examples/utils.py`): expectation of the
one-step action values under the policy's distribution at `state`.  The
per-state distribution is passed as an association list in the policy
table's iteration order. -/
def calculate_state_value {S A : Type} (state : S)
    (action_probabilities : List (A × ℚ)) (environment : Env S A)
    (state_values : S → ℚ) (discount_factor : ℚ) : Env S A × ℚ :=
  action_probabilities.foldl
    (fun acc ap =>
      let ev := calculate_action_value state ap.1 acc.1 state_values discount_factor
      (ev.1, acc.2 + ap.2 * ev.2))
    (environment, 0)

/-- A `(s, a, r', s')` experience tuple (`style="sars"`). -/
structure Exp4 (S A : Type) where
  s : S
  a : A
  r : ℚ
  sNext : S
deriving DecidableEq

/-- A `(s, a, r', s', a')` experience tuple (`style="sarsa"`). -/
structure Exp5 (S A : Type) where
  s : S
  a : A
  r : ℚ
  sNext : S
  aNext : A
deriving DecidableEq

/-- `get_experience_sample` (`rl/sample.py`), `style="sars"`.  The policy's
random draw `policy.get_action(s)` is the oracle `π` applied to the draw
counter `k` and the state; the counter is threaded through and returned. -/
def get_experience_sample_sars {S A : Type} (π : ℕ → S → A) (k : ℕ)
    (environment : Env S A) (reset_to_original_state : Bool) :
    Exp4 S A × Env S A × ℕ :=
  let s := get_current_state environment
  let a := π k s
  let er := take_action environment a
  let s_prime := get_current_state er.1
  let sample : Exp4 S A := ⟨s, a, er.2, s_prime⟩
  (sample, if reset_to_original_state then update_state er.1 s else er.1, k + 1)

/-- `get_experience_sample` (`rl/sample.py`), `style="sarsa"`: additionally
draws `a' = policy.get_action(s')` (the next oracle draw). -/
def get_experience_sample_sarsa {S A : Type} (π : ℕ → S → A) (k : ℕ)
    (environment : Env S A) (reset_to_original_state : Bool) :
    Exp5 S A × Env S A × ℕ :=
  let s := get_current_state environment
  let a := π k s
  let er := take_action environment a
  let s_prime := get_current_state er.1
  let a_prime := π (k + 1) s_prime
  let sample : Exp5 S A := ⟨s, a, er.2, s_prime, a_prime⟩
  (sample, if reset_to_original_state then update_state er.1 s else er.1, k + 2)

/-- Replace the trailing next-action field of a sarsa sample. -/
def set_next_action {S A : Type} (e : Exp5 S A) (a : A) : Exp5 S A :=
  { e with aNext := a }

/-- `trajectory[-1] = tuple(list(trajectory[-1])[:-1] + [a])`
(`rl/sample.py`): replace the last entry's trailing next-action field with
`a`; the guard `len(trajectory) > 0` corresponds to the `[]` case. -/
def backpatch {S A : Type} : List (Exp5 S A) → A → List (Exp5 S A)
  | [], _ => []
  | [e], a => [set_next_action e a]
  | e :: e2 :: rest, a => e :: backpatch (e2 :: rest) a

/-- Loop body of `generate_trajectory` (`rl/sample.py`), `style="sars"`:
sample, append, stop at terminal states when requested, bounded by the
remaining step budget (`fuel`). -/
def generate_trajectory_sars_loop {S A : Type} (π : ℕ → S → A)
    (end_at_terminal_steps : Bool) :
    ℕ → ℕ → Env S A → List (Exp4 S A) → List (Exp4 S A) × Env S A × ℕ
  | 0, k, env, acc => (acc, env, k)
  | fuel + 1, k, env, acc =>
    let res := get_experience_sample_sars π k env false
    let acc2 := acc ++ [res.1]
    if end_at_terminal_steps && at_terminal_state res.2.1 then
      (acc2, res.2.1, res.2.2)
    else
      generate_trajectory_sars_loop π end_at_terminal_steps fuel res.2.2 res.2.1 acc2

/-- `generate_trajectory` (`rl/sample.py`), `style="sars"`: runs the loop
from the environment's current state for at most `max_steps` steps and
restores the original state afterwards when `reset_to_original_state`. -/
def generate_trajectory_sars {S A : Type} (π : ℕ → S → A) (k : ℕ)
    (environment : Env S A) (max_steps : ℕ)
    (end_at_terminal_steps reset_to_original_state : Bool) :
    List (Exp4 S A) × Env S A × ℕ :=
  let original_state := get_current_state environment
  let res := generate_trajectory_sars_loop π end_at_terminal_steps max_steps k environment []
  (res.1,
   if reset_to_original_state then update_state res.2.1 original_state else res.2.1,
   res.2.2)

/-- Loop body of `generate_trajectory` (`rl/sample.py`), `style="sarsa"`:
before appending the fresh sample, the previous entry's trailing
next-action is back-patched with the fresh sample's action. -/
def generate_trajectory_sarsa_loop {S A : Type} (π : ℕ → S → A)
    (end_at_terminal_steps : Bool) :
    ℕ → ℕ → Env S A → List (Exp5 S A) → List (Exp5 S A) × Env S A × ℕ
  | 0, k, env, acc => (acc, env, k)
  | fuel + 1, k, env, acc =>
    let res := get_experience_sample_sarsa π k env false
    let acc2 := backpatch acc res.1.a ++ [res.1]
    if end_at_terminal_steps && at_terminal_state res.2.1 then
      (acc2, res.2.1, res.2.2)
    else
      generate_trajectory_sarsa_loop π end_at_terminal_steps fuel res.2.2 res.2.1 acc2

/-- `generate_trajectory` (`rl/sample.py`), `style="sarsa"`. -/
def generate_trajectory_sarsa {S A : Type} (π : ℕ → S → A) (k : ℕ)
    (environment : Env S A) (max_steps : ℕ)
    (end_at_terminal_steps reset_to_original_state : Bool) :
    List (Exp5 S A) × Env S A × ℕ :=
  let original_state := get_current_state environment
  let res := generate_trajectory_sarsa_loop π end_at_terminal_steps max_steps k environment []
  (res.1,
   if reset_to_original_state then update_state res.2.1 original_state else res.2.1,
   res.2.2)

/-- Modelled from the spec: the extended `generate_trajectory` accepting
`start_state` and `start_action` used by `rl/algorithms/mc_basic.py`,
`mc_exploring_starts.py` and `mc_e_greedy.py` is absent from the sources
(`rl/sample.py` lacks those keyword arguments).  Per the spec, the
trajectory "starts exactly at that state/action": the environment is set
to `start_state`, the first step takes `start_action`, and subsequent
steps follow the policy as in `generate_trajectory` (`style="sars"`). -/
def generate_trajectory_from {S A : Type} (π : ℕ → S → A) (k : ℕ)
    (environment : Env S A) (start_state : S) (start_action : A)
    (max_steps : ℕ) (end_at_terminal_steps : Bool) :
    List (Exp4 S A) × Env S A × ℕ :=
  match max_steps with
  | 0 => ([], update_state environment start_state, k)
  | fuel + 1 =>
    let env0 := update_state environment start_state
    let er := take_action env0 start_action
    let s_prime := get_current_state er.1
    let sample : Exp4 S A := ⟨start_state, start_action, er.2, s_prime⟩
    if end_at_terminal_steps && at_terminal_state er.1 then
      ([sample], er.1, k)
    else
      generate_trajectory_sars_loop π end_at_terminal_steps fuel k er.1 [sample]

/-- The backward return accumulation of `rl/algorithms/mc_basic.py`
(`g = 0; for (_, _, r, _) in reversed(trajectory): g = γ·g + r`):
`foldr` visits the last entry first, exactly like the reversed loop. -/
def discounted_return {S A : Type} (discount_factor : ℚ)
    (trajectory : List (Exp4 S A)) : ℚ :=
  trajectory.foldr (fun e g => discount_factor * g + e.r) 0

/-- The per-pair evaluation loop of `rl/algorithms/mc_basic.py`: sample
`n` trajectories from `(s, a)` (environment and draw counter threaded),
appending the discounted return of each to the returns list. -/
def mc_basic_returns {S A : Type} (π : ℕ → S → A)
    (s : S) (a : A) (discount_factor : ℚ) (max_steps_in_trajectory : ℕ)
    (end_trajectory_at_terminal_state : Bool) :
    ℕ → ℕ → Env S A → List ℚ × Env S A × ℕ
  | 0, k, env => ([], env, k)
  | n + 1, k, env =>
    let tr := generate_trajectory_from π k env s a max_steps_in_trajectory
      end_trajectory_at_terminal_state
    let g := discounted_return discount_factor tr.1
    let rest := mc_basic_returns π s a discount_factor max_steps_in_trajectory
      end_trajectory_at_terminal_state n tr.2.2 tr.2.1
    (g :: rest.1, rest.2)

/-- The trajectories the evaluation loop of `mc_basic` samples for the
pair `(s, a)`, collected in order (same recursion as `mc_basic_returns`,
recording the trajectory instead of its return). -/
def mc_basic_trajectories {S A : Type} (π : ℕ → S → A)
    (s : S) (a : A) (discount_factor : ℚ) (max_steps_in_trajectory : ℕ)
    (end_trajectory_at_terminal_state : Bool) :
    ℕ → ℕ → Env S A → List (List (Exp4 S A)) × Env S A × ℕ
  | 0, k, env => ([], env, k)
  | n + 1, k, env =>
    let tr := generate_trajectory_from π k env s a max_steps_in_trajectory
      end_trajectory_at_terminal_state
    let rest := mc_basic_trajectories π s a discount_factor max_steps_in_trajectory
      end_trajectory_at_terminal_state n tr.2.2 tr.2.1
    (tr.1 :: rest.1, rest.2)

/-- `action_values[s][a] = sum(returns) / len(returns)`
(`rl/algorithms/mc_basic.py`). -/
def mc_basic_action_value {S A : Type} (π : ℕ → S → A)
    (s : S) (a : A) (discount_factor : ℚ)
    (num_samples_per_iteration max_steps_in_trajectory : ℕ)
    (end_trajectory_at_terminal_state : Bool) (k : ℕ) (env : Env S A) : ℚ :=
  let returns := (mc_basic_returns π s a discount_factor max_steps_in_trajectory
    end_trajectory_at_terminal_state num_samples_per_iteration k env).1
  returns.sum / returns.length

/-- One comparison of Python's `max(..., key=lambda x: x[1])`: the
running best is replaced only on a strictly greater key. -/
def py_max_step {A : Type} (best : Option (A × ℚ)) (x : A × ℚ) :
    Option (A × ℚ) :=
  match best with
  | none => some x
  | some b => if x.2 > b.2 then some x else some b

/-- Python's `max(pairs, key=lambda x: x[1])`: a left scan that replaces
the running best only on a strictly greater value, hence returning the
first pair attaining the maximum. -/
def py_max_by_val {A : Type} : List (A × ℚ) → Option (A × ℚ) :=
  List.foldl py_max_step none

/-- The policy-improvement choice shared by `rl/algorithms/policy_iteration.py`
(lines 40–46), `value_iteration.py` (lines 14–19) and `mc_basic.py`
(line 38): build `action_values` by iterating the environment's declared
actions in order and take `max(action_values.items(), key=...)`.
(`mc_basic` scans a dict initialised by `{a: -1000 for a in
environment.actions}` and then overwritten in place, so its insertion
order is also the declared action order.) -/
def improvement_chosen_action {A : Type} (actions : List A)
    (action_value : A → ℚ) : Option (A × ℚ) :=
  py_max_by_val (actions.map fun a => (a, action_value a))

/-- Association-list lookup (Python `dict` read). -/
def alist_lookup {K V : Type} [DecidableEq K] : List (K × V) → K → Option V
  | [], _ => none
  | p :: rest, k => if p.1 = k then some p.2 else alist_lookup rest k

/-- Association-list write (Python `dict` assignment: overwrite in place,
append a new key at the end — insertion order preserved). -/
def alist_set {K V : Type} [DecidableEq K] : List (K × V) → K → V → List (K × V)
  | [], k, v => [(k, v)]
  | p :: rest, k, v => if p.1 = k then (k, v) :: rest else p :: alist_set rest k v

/-- `EpsilonGreedyPolicy.get_epsilon_greedy_probability` (`rl/policy.py`):
`1 - (epsilon / num_actions) * (num_actions - 1)`. -/
def get_epsilon_greedy_probability (epsilon : ℚ) (num_actions : ℕ) : ℚ :=
  1 - (epsilon / num_actions) * ((num_actions : ℚ) - 1)

/-- `EpsilonGreedyPolicy.get_epsilon_non_greedy_probability`
(`rl/policy.py`): `epsilon / num_actions`. -/
def get_epsilon_non_greedy_probability (epsilon : ℚ) (num_actions : ℕ) : ℚ :=
  epsilon / num_actions

/-- The per-state distribution `EpsilonGreedyPolicy.update_policy` builds
(`rl/policy.py` lines 178–192): iterate the declared actions, giving the
chosen action the greedy probability and every other action the
non-greedy probability. -/
def epsilon_greedy_distribution {A : Type} [DecidableEq A] (actions : List A)
    (epsilon : ℚ) (chosen_action : A) : List (A × ℚ) :=
  actions.map fun a =>
    (a, if a = chosen_action then get_epsilon_greedy_probability epsilon actions.length
        else get_epsilon_non_greedy_probability epsilon actions.length)

/-- Base `Policy.update_policy` (`rl/policy.py` lines 93–106): raise on a
length mismatch with the declared action set or on a sum not
`np.isclose` to 1, otherwise rebind the state's distribution.  `none`
models the raise. -/
def update_policy {S A : Type} [DecidableEq S] (actions : List A)
    (policy_table : S → List (A × ℚ)) (state : S)
    (action_probabilities : List (A × ℚ)) : Option (S → List (A × ℚ)) :=
  if action_probabilities.length = actions.length then
    if isclose (action_probabilities.map Prod.snd).sum 1 then
      some fun t => if t = state then action_probabilities else policy_table t
    else none
  else none

/-- `EpsilonGreedyPolicy.update_policy` (`rl/policy.py`): compute the
epsilon-greedy distribution for the chosen action, then go through the
base `update_policy` validation. -/
def epsilon_greedy_update_policy {S A : Type} [DecidableEq S] [DecidableEq A]
    (actions : List A) (policy_table : S → List (A × ℚ)) (state : S)
    (epsilon : ℚ) (chosen_action : A) : Option (S → List (A × ℚ)) :=
  update_policy actions policy_table state
    (epsilon_greedy_distribution actions epsilon chosen_action)

/-- The per-state body of `Policy.check_policy_table` (`rl/policy.py`
lines 47–65): every declared action must be present, each probability in
`[0, 1]`, and the running total `np.isclose` to 1.  (The NaN test cannot
fire over `ℚ`; the "state not in the policy table" test cannot fire
because `self.states` is defined as the table's key set.) -/
def check_state_distribution {A : Type} [DecidableEq A] (actions : List A)
    (dist : List (A × ℚ)) : Bool :=
  (actions.all fun a =>
    match alist_lookup dist a with
    | none => false
    | some p => decide (0 ≤ p) && decide (p ≤ 1))
  && isclose (actions.filterMap (alist_lookup dist)).sum 1

/-- `Policy.check_policy_table` over the declared states. -/
def check_policy_table {S A : Type} [DecidableEq A] (states : List S)
    (actions : List A) (policy_table : S → List (A × ℚ)) : Bool :=
  states.all fun s => check_state_distribution actions (policy_table s)

/-- The SARSA table write
`q[s][a] = q[s][a] - learning_rate * (q[s][a] - r_prime - discount_factor * q[s_prime][a_prime])`
(`rl/algorithms/sarsa.py` line 30): the right-hand side reads the old
table, then exactly the entry `(s, a)` is overwritten. -/
def sarsa_step_update {S A : Type} [DecidableEq S] [DecidableEq A]
    (learning_rate discount_factor : ℚ) (q : S → A → ℚ) (e : Exp5 S A) :
    S → A → ℚ :=
  fun t b =>
    if t = e.s ∧ b = e.a then
      q e.s e.a - learning_rate * (q e.s e.a - e.r - discount_factor * q e.sNext e.aNext)
    else q t b

/-- Modelled from the spec: the extended `get_experience_sample` accepting
a `state` keyword used by `rl/algorithms/sarsa.py` is absent from the
sources (`rl/sample.py` lacks it).  Per the spec's environment contract it
first sets the environment to the given state, then samples a `"sarsa"`
style step as in `rl/sample.py`. -/
def get_experience_sample_from_state {S A : Type} (π : ℕ → S → A) (k : ℕ)
    (environment : Env S A) (state : S) : Exp5 S A × Env S A × ℕ :=
  get_experience_sample_sarsa π k (update_state environment state) false

/-- One episode of `sarsa` (`rl/algorithms/sarsa.py` lines 24–37): sample
a `"sarsa"` transition from the tracked state, apply the table update,
stop at terminal states when requested.  The per-step policy improvement
(`max(q[s], key=q[s].get)` then `policy.update_policy`) mutates only the
policy, whose subsequent draws the oracle `π` absorbs.  Returns the final
table, environment, draw counter and the list of sampled transitions. -/
def sarsa_episode {S A : Type} [DecidableEq S] [DecidableEq A]
    (π : ℕ → S → A) (learning_rate discount_factor : ℚ)
    (end_trajectory_at_terminal_state : Bool) :
    ℕ → ℕ → Env S A → S → (S → A → ℚ) →
    (S → A → ℚ) × Env S A × ℕ × List (Exp5 S A)
  | 0, k, env, _, q => (q, env, k, [])
  | fuel + 1, k, env, s_prime, q =>
    let res := get_experience_sample_from_state π k env s_prime
    let e := res.1
    let q2 := sarsa_step_update learning_rate discount_factor q e
    if end_trajectory_at_terminal_state && at_terminal_state res.2.1 then
      (q2, res.2.1, res.2.2, [e])
    else
      let rest := sarsa_episode π learning_rate discount_factor
        end_trajectory_at_terminal_state fuel res.2.2 res.2.1 e.sNext q2
      (rest.1, rest.2.1, rest.2.2.1, e :: rest.2.2.2)

/-- `returns[s][a].append(g)` (`rl/algorithms/mc_exploring_starts.py`). -/
def append_return {S A : Type} [DecidableEq S] [DecidableEq A]
    (ret : S → A → List ℚ) (s : S) (a : A) (g : ℚ) : S → A → List ℚ :=
  fun t b => if t = s ∧ b = a then ret s a ++ [g] else ret t b

/-- The every-visit accumulation of `rl/algorithms/mc_exploring_starts.py`
(lines 35–38): `g = 0; for (s, a, r, _) in reversed(trajectory): g = γ·g + r;
returns[s][a].append(g)`.  The recursion processes the tail first, exactly
like the reversed loop. -/
def accumulate_returns {S A : Type} [DecidableEq S] [DecidableEq A]
    (discount_factor : ℚ) :
    List (Exp4 S A) → (S → A → List ℚ) × ℚ → (S → A → List ℚ) × ℚ
  | [], st => st
  | e :: rest, st =>
    let inner := accumulate_returns discount_factor rest st
    let g2 := discount_factor * inner.2 + e.r
    (append_return inner.1 e.s e.a g2, g2)

/-- Mutable loop state of `mc_exploring_starts`: the returns buffer, the
threaded environment and draw counter, and the round-robin start
indices. -/
structure MCESState (S A : Type) where
  returns : S → A → List ℚ
  env : Env S A
  k : ℕ
  start_state_index : ℕ
  start_action_index : ℕ

/-- One episode of `mc_exploring_starts` (`rl/algorithms/mc_exploring_starts.py`
lines 18–45): pick the round-robin start pair, advance the indices,
sample a trajectory from that pair, accumulate every-visit returns.  The
per-episode policy improvement mutates only the policy, whose subsequent
draws the oracle `π` absorbs.  The unreachable `none` branch corresponds
to indexing an empty state/action list, on which Python raises. -/
def mc_es_episode {S A : Type} [DecidableEq S] [DecidableEq A]
    (π : ℕ → S → A) (discount_factor : ℚ) (max_steps_in_trajectory : ℕ)
    (end_trajectory_at_terminal_state : Bool) (st : MCESState S A) :
    MCESState S A :=
  match st.env.states[st.start_state_index % st.env.states.length]?,
        st.env.actions[st.start_action_index % st.env.actions.length]? with
  | some start_state, some start_action =>
    let idxA := st.start_action_index + 1
    let idxS := if idxA % st.env.actions.length = 0 then st.start_state_index + 1
                else st.start_state_index
    let tr := generate_trajectory_from π st.k st.env start_state start_action
      max_steps_in_trajectory end_trajectory_at_terminal_state
    let acc := accumulate_returns discount_factor tr.1 (st.returns, 0)
    ⟨acc.1, tr.2.1, tr.2.2, idxS, idxA⟩
  | _, _ => st

/-- The episode loop of `mc_exploring_starts`, run for `num_episodes`
episodes. -/
def mc_es_run {S A : Type} [DecidableEq S] [DecidableEq A]
    (π : ℕ → S → A) (discount_factor : ℚ) (max_steps_in_trajectory : ℕ)
    (end_trajectory_at_terminal_state : Bool) :
    ℕ → MCESState S A → MCESState S A
  | 0, st => st
  | n + 1, st =>
    mc_es_run π discount_factor max_steps_in_trajectory
      end_trajectory_at_terminal_state n
      (mc_es_episode π discount_factor max_steps_in_trajectory
        end_trajectory_at_terminal_state st)

/-- The final visitation check of `mc_exploring_starts`
(`rl/algorithms/mc_exploring_starts.py` lines 53–58): collect, in nested
loop order, every declared pair whose returns list is empty. -/
def mc_es_not_visited {S A : Type} [DecidableEq S] [DecidableEq A]
    (states : List S) (actions : List A) (ret : S → A → List ℚ) :
    List (S × A) :=
  states.foldr
    (fun s acc =>
      (actions.filterMap fun a => if ret s a = [] then some (s, a) else none) ++ acc)
    []

/-- `mc_exploring_starts` (`rl/algorithms/mc_exploring_starts.py`): zero
initial returns and indices, run the episodes, then raise (modelled as
`.error`) naming the unvisited pairs if any remain.  `take_action` and
`update_state` never touch the declared `states`/`actions` lists, so the
final check over `environment.states`/`environment.actions` reads the
initial environment's lists. -/
def mc_exploring_starts {S A : Type} [DecidableEq S] [DecidableEq A]
    (π : ℕ → S → A) (environment : Env S A) (discount_factor : ℚ)
    (num_episodes max_steps_in_trajectory : ℕ)
    (end_trajectory_at_terminal_state : Bool) :
    Except (List (S × A)) (MCESState S A) :=
  let init : MCESState S A := ⟨fun _ _ => [], environment, 0, 0, 0⟩
  let final := mc_es_run π discount_factor max_steps_in_trajectory
    end_trajectory_at_terminal_state num_episodes init
  let not_visited := mc_es_not_visited environment.states environment.actions
    final.returns
  if not_visited = [] then .ok final else .error not_visited

/-- Heap of per-state distribution dicts, for modelling Python object
identity in `Policy.copy` (`deepcopy`): a cell address is an index into
`cells`; allocation appends. -/
structure Heap (A : Type) where
  cells : List (List (A × ℚ))

/-- A policy object: its `policy_table` maps each state to the heap
address of that state's inner probability dict. -/
structure PolicyObj (S : Type) where
  table : List (S × ℕ)

/-- Dereference a cell (out-of-range addresses never arise for
well-formed objects). -/
def heap_read {A : Type} (h : Heap A) (addr : ℕ) : List (A × ℚ) :=
  h.cells.getD addr []

/-- `Policy.get_action_probabilities` through the heap: the state's inner
dict as stored. -/
def read_dist {S A : Type} [DecidableEq S] (h : Heap A) (p : PolicyObj S)
    (s : S) : Option (List (A × ℚ)) :=
  (alist_lookup p.table s).map (heap_read h)

/-- Copy each state's inner dict into a fresh cell, the first fresh cell
getting address `n`: returns the new cells (in order) and the new outer
table pointing at them. -/
def copy_cells {S A : Type} (h : Heap A) :
    List (S × ℕ) → ℕ → List (List (A × ℚ)) × List (S × ℕ)
  | [], _ => ([], [])
  | sa :: rest, n =>
    let r := copy_cells h rest (n + 1)
    (heap_read h sa.2 :: r.1, (sa.1, n) :: r.2)

/-- `Policy.copy` (`rl/policy.py` lines 123–125), i.e. `deepcopy(self)`:
a fresh outer table whose states point at freshly allocated cells holding
copies of the original inner dicts. -/
def policy_deepcopy {S A : Type} (h : Heap A) (p : PolicyObj S) :
    Heap A × PolicyObj S :=
  let r := copy_cells h p.table h.cells.length
  (⟨h.cells ++ r.1⟩, ⟨r.2⟩)

/-- Mutations a caller can apply to a policy object:
`update_policy`-style rebinding of a state's distribution
(`self.policy_table[state] = action_probabilities`, binding a fresh dict)
and a direct write into a state's inner dict
(`policy_table[state][action] = v`). -/
inductive PolicyMut (S A : Type) where
  | update (state : S) (dist : List (A × ℚ))
  | write (state : S) (action : A) (p : ℚ)

/-- Apply one mutation to a (heap, policy object) pair. -/
def apply_mut {S A : Type} [DecidableEq S] [DecidableEq A]
    (hp : Heap A × PolicyObj S) (m : PolicyMut S A) :
    Heap A × PolicyObj S :=
  match m with
  | .update s dist =>
    (⟨hp.1.cells ++ [dist]⟩, ⟨alist_set hp.2.table s hp.1.cells.length⟩)
  | .write s a v =>
    match alist_lookup hp.2.table s with
    | none => hp
    | some addr =>
      (⟨hp.1.cells.set addr (alist_set (heap_read hp.1 addr) a v)⟩, hp.2)

/-- Apply a sequence of mutations in order. -/
def apply_muts {S A : Type} [DecidableEq S] [DecidableEq A]
    (hp : Heap A × PolicyObj S) (ms : List (PolicyMut S A)) :
    Heap A × PolicyObj S :=
  ms.foldl apply_mut hp

/-! ### Concrete fixtures used by counterexamples and witnesses -/

/-- A three-state line world: action `1` advances towards the absorbing
state `2` with reward `1`, action `0` stays with reward `0`. -/
def lineEnv : Env ℕ ℕ :=
  { cur := 0
  , step := fun s a => if a = 1 then (min (s + 1) 2, (1 : ℚ)) else (s, 0)
  , states := [0, 1, 2]
  , actions := [0, 1]
  , terminal := fun s => decide (s = 2) }

/-! ### C1 — `calculate_action_value` and environment state -/

/-- C1 counterexample: the claim says the one-step lookahead
`calculate_action_value` leaves the environment's current state as it
found it.  On the line world with current state `0`, looking ahead from
state `0` with action `1` leaves the environment at state `1`, not `0`:
the function never saves or restores the pre-call state. -/
theorem c1_lookahead_mutates_environment :
    ¬ ((calculate_action_value 0 1 lineEnv (fun _ => 0) (9 / 10)).1.cur
        = lineEnv.cur) := by decide

/-- C1 (amended): `calculate_action_value` first sets the environment to
the queried `state` and then takes `action`, so after the call the
environment's current state is the successor of `(state, action)` under
the transition rule — independent of the pre-call current state — and the
returned value is `r + γ·V(s')`.  (Each caller starts every lookahead
with its own `update_state`, so the outer loops never rely on the
current state being preserved.) -/
theorem c1_calculate_action_value_moves_env_to_successor {S A : Type}
    (state : S) (action : A) (environment : Env S A) (state_values : S → ℚ)
    (discount_factor : ℚ) :
    (calculate_action_value state action environment state_values discount_factor).1.cur
        = (environment.step state action).1
    ∧ (calculate_action_value state action environment state_values discount_factor).2
        = (environment.step state action).2
          + discount_factor * state_values (environment.step state action).1 :=
  ⟨rfl, rfl⟩

/-! ### C2 — the convergence predicates -/

/-- C2 counterexample: the claim says the convergence predicates return
`True` iff no entry changed by more than the tolerance in magnitude.
With a value (resp. probability) that drops from `1` to `0` — a change of
magnitude `1`, far above the tolerance `1/100` — both predicates still
return `True`, because they only test the signed difference
`new - old > tolerance` and never its absolute value. -/
theorem c2_convergence_ignores_decreases :
    have_state_values_converged [0] (fun _ => (1 : ℚ)) (fun _ => 0) (1 / 100) = true
    ∧ has_policy_converged [0] [0] (fun _ _ => (1 : ℚ)) (fun _ _ => 0) (1 / 100) = true
    ∧ ¬ (|(0 : ℚ) - 1| ≤ 1 / 100) := by
  refine ⟨?_, ?_, ?_⟩
  · simp only [have_state_values_converged, List.all_cons, List.all_nil]
    norm_num
  · simp only [has_policy_converged, List.all_cons, List.all_nil]
    norm_num
  · rw [show (0 : ℚ) - 1 = -1 by norm_num, abs_neg, abs_one]
    norm_num

/-- C2 (amended): the convergence predicates return `True` iff no entry
*increased* by more than the tolerance: `have_state_values_converged`
iff every state's signed change `new - old` is at most the tolerance,
and `has_policy_converged` iff every state's per-action signed
probability change is at most the tolerance.  Decreases of any magnitude
never block convergence. -/
theorem c2_convergence_checks_bound_signed_increase {S A : Type}
    (states : List S) (actions : List A) (oldV newV : S → ℚ)
    (oldP newP : S → A → ℚ) (tolerance : ℚ) :
    (have_state_values_converged states oldV newV tolerance = true
      ↔ ∀ s ∈ states, newV s - oldV s ≤ tolerance)
    ∧ (has_policy_converged states actions oldP newP tolerance = true
      ↔ ∀ s ∈ states, ∀ a ∈ actions, newP s a - oldP s a ≤ tolerance) := by
  constructor <;>
    simp [have_state_values_converged, has_policy_converged, List.all_eq_true]

/-! ### C10 — base `Policy.update_policy` validation -/

/-- C10: the base `Policy.update_policy` fails iff the provided mapping's
length differs from the declared action count or its values do not sum to
1 within `np.isclose` tolerance; it never checks individual entries, so
the mapping `{a0: 1.5, a1: -0.5}` (which sums to 1) is accepted and
stored, and the stored table only fails when `check_policy_table` next
runs (as it does inside the next `get_action`).  (The NaN case of the
claim is not expressible over `ℚ`, which has no NaN.) -/
theorem c10_update_policy_checks_length_and_sum_only :
    (∀ (actions : List ℕ) (policy_table : ℕ → List (ℕ × ℚ)) (state : ℕ)
        (action_probabilities : List (ℕ × ℚ)),
        (update_policy actions policy_table state action_probabilities).isSome
          ↔ (action_probabilities.length = actions.length
             ∧ isclose (action_probabilities.map Prod.snd).sum 1 = true))
    ∧ (update_policy [0, 1] (fun _ => [(0, 1/2), (1, 1/2)]) 0
        [(0, 3/2), (1, -1/2)]).isSome = true
    ∧ check_policy_table [0] [0, 1]
        ((update_policy [0, 1] (fun _ => [(0, 1/2), (1, 1/2)]) 0
          [(0, 3/2), (1, -1/2)]).getD (fun _ => [(0, 1/2), (1, 1/2)])) = false := by
  have hstore : update_policy [0, 1] (fun _ => [(0, 1/2), (1, 1/2)]) 0
      [(0, 3/2), (1, -1/2)]
      = some (fun t : ℕ => if t = 0 then [(0, 3/2), (1, -1/2)]
              else [(0, 1/2), (1, 1/2)]) := by
    simp only [update_policy, isclose, List.map_cons, List.map_nil, List.sum_cons,
      List.sum_nil, List.length_cons, List.length_nil]
    norm_num
  refine ⟨fun actions policy_table state aps => ?_, by rw [hstore]; rfl, ?_⟩
  swap
  · rw [hstore]
    simp only [Option.getD_some, check_policy_table, check_state_distribution,
      alist_lookup, List.all_cons, List.all_nil, List.filterMap, isclose]
    norm_num
  unfold update_policy
  by_cases hl : aps.length = actions.length
  · by_cases hs : isclose (aps.map Prod.snd).sum 1
    · simp [hl, hs]
    · simp [hl, hs]
  · simp [hl]

/-! ### C7 — the epsilon-greedy update distribution -/

/-- Looking up a key of a keyed map `a ↦ (a, f a)` yields `f` at that
key. -/
theorem alist_lookup_map_self {A : Type} [DecidableEq A] (f : A → ℚ) :
    ∀ (l : List A) (a : A), a ∈ l →
      alist_lookup (l.map fun x => (x, f x)) a = some (f a) := by
  intro l
  induction l with
  | nil => intro a ha; cases ha
  | cons x rest ih =>
    intro a ha
    simp only [List.map_cons, alist_lookup]
    by_cases hx : x = a
    · subst hx; simp
    · simp only [hx, if_false]
      exact ih a (by
        rcases List.mem_cons.mp ha with h | h
        · exact absurd h.symm hx
        · exact h)

/-- Sum of a two-valued keyed map over a duplicate-free list containing
the distinguished key: one greedy term plus `length - 1` non-greedy
terms. -/
theorem sum_map_ite_of_nodup {A : Type} [DecidableEq A] (g ng : ℚ) :
    ∀ (l : List A) (c : A), l.Nodup → c ∈ l →
      (l.map fun a => if a = c then g else ng).sum
        = g + ((l.length : ℚ) - 1) * ng := by
  intro l
  induction l with
  | nil => intro c _ hc; cases hc
  | cons x rest ih =>
    intro c hnd hc
    have hx : x ∉ rest := (List.nodup_cons.mp hnd).1
    have hrest : rest.Nodup := (List.nodup_cons.mp hnd).2
    simp only [List.map_cons, List.sum_cons, List.length_cons]
    rcases List.mem_cons.mp hc with hxc | hcr
    · have hcnot : c ∉ rest := hxc ▸ hx
      have hne : ∀ a ∈ rest, (if a = c then g else ng) = ng := by
        intro a ha
        have : a ≠ c := fun h => hcnot (h ▸ ha)
        simp [this]
      rw [if_pos hxc.symm, List.map_congr_left hne]
      have : (rest.map fun _ => ng).sum = (rest.length : ℚ) * ng := by
        rw [List.map_const', List.sum_replicate, nsmul_eq_mul]
      rw [this]
      push_cast
      ring
    · have hxc : x ≠ c := fun h => hx (h ▸ hcr)
      rw [if_neg hxc, ih c hrest hcr]
      push_cast
      ring

/-- C7: after `EpsilonGreedyPolicy.update_policy(state, a*)` with
`epsilon ∈ [0, 1]`, the stored distribution gives the chosen action
probability `1 - epsilon·(k-1)/k` and every other declared action
`epsilon/k` (`k` the number of declared actions); these sum to exactly 1,
so the base `update_policy` validation passes and the per-state invariant
is preserved; `epsilon = 0` gives the chosen action probability 1 and all
others 0, and `epsilon = 1` gives the uniform distribution `1/k`. -/
theorem c7_epsilon_greedy_update_policy_distribution {S A : Type}
    [DecidableEq S] [DecidableEq A]
    (actions : List A) (epsilon : ℚ) (chosen_action : A)
    (policy_table : S → List (A × ℚ)) (state : S)
    (hepsilon0 : 0 ≤ epsilon) (hepsilon1 : epsilon ≤ 1)
    (hmem : chosen_action ∈ actions) (hnd : actions.Nodup) :
    (alist_lookup (epsilon_greedy_distribution actions epsilon chosen_action)
        chosen_action
      = some (1 - epsilon * ((actions.length : ℚ) - 1) / actions.length))
    ∧ (∀ a ∈ actions, a ≠ chosen_action →
        alist_lookup (epsilon_greedy_distribution actions epsilon chosen_action) a
          = some (epsilon / actions.length))
    ∧ ((epsilon_greedy_distribution actions epsilon chosen_action).map Prod.snd).sum = 1
    ∧ epsilon_greedy_update_policy actions policy_table state epsilon chosen_action
        = some (fun t => if t = state
            then epsilon_greedy_distribution actions epsilon chosen_action
            else policy_table t)
    ∧ (epsilon = 0 →
        alist_lookup (epsilon_greedy_distribution actions epsilon chosen_action)
            chosen_action = some 1
        ∧ ∀ a ∈ actions, a ≠ chosen_action →
            alist_lookup (epsilon_greedy_distribution actions epsilon chosen_action) a
              = some 0)
    ∧ (epsilon = 1 → ∀ a ∈ actions,
        alist_lookup (epsilon_greedy_distribution actions epsilon chosen_action) a
          = some (1 / (actions.length : ℚ))) := by
  have hlen : actions.length ≠ 0 := by
    intro h
    rw [List.length_eq_zero] at h
    subst h
    cases hmem
  have hlenQ : ((actions.length : ℚ)) ≠ 0 := by
    exact_mod_cast hlen
  have hlookup := alist_lookup_map_self
    (fun a => if a = chosen_action
      then get_epsilon_greedy_probability epsilon actions.length
      else get_epsilon_non_greedy_probability epsilon actions.length) actions
  have hchosen :
      alist_lookup (epsilon_greedy_distribution actions epsilon chosen_action)
        chosen_action = some (get_epsilon_greedy_probability epsilon actions.length) := by
    rw [epsilon_greedy_distribution, hlookup chosen_action hmem, if_pos rfl]
  have hother : ∀ a ∈ actions, a ≠ chosen_action →
      alist_lookup (epsilon_greedy_distribution actions epsilon chosen_action) a
        = some (get_epsilon_non_greedy_probability epsilon actions.length) := by
    intro a ha hne
    rw [epsilon_greedy_distribution, hlookup a ha, if_neg hne]
  have hsum :
      ((epsilon_greedy_distribution actions epsilon chosen_action).map Prod.snd).sum
        = 1 := by
    rw [epsilon_greedy_distribution, List.map_map]
    have : (Prod.snd ∘ fun a : A =>
        (a, if a = chosen_action
          then get_epsilon_greedy_probability epsilon actions.length
          else get_epsilon_non_greedy_probability epsilon actions.length))
        = fun a => if a = chosen_action
          then get_epsilon_greedy_probability epsilon actions.length
          else get_epsilon_non_greedy_probability epsilon actions.length := rfl
    rw [this, sum_map_ite_of_nodup _ _ actions chosen_action hnd hmem,
      get_epsilon_greedy_probability, get_epsilon_non_greedy_probability]
    ring
  refine ⟨?_, ?_, hsum, ?_, ?_, ?_⟩
  · rw [hchosen, get_epsilon_greedy_probability]
    congr 1
    ring
  · intro a ha hne
    rw [hother a ha hne, get_epsilon_non_greedy_probability]
  · rw [epsilon_greedy_update_policy, update_policy,
      if_pos (by rw [epsilon_greedy_distribution, List.length_map]),
      if_pos (by rw [hsum]; simp [isclose]; norm_num)]
  · intro h0
    subst h0
    constructor
    · rw [hchosen, get_epsilon_greedy_probability]
      norm_num
    · intro a ha hne
      rw [hother a ha hne, get_epsilon_non_greedy_probability]
      norm_num
  · intro h1
    subst h1
    intro a ha
    by_cases hne : a = chosen_action
    · subst hne
      rw [hchosen, get_epsilon_greedy_probability]
      congr 1
      field_simp
    · rw [hother a ha hne, get_epsilon_non_greedy_probability]

/-- Witness for C7 at a concrete instance: four actions, `epsilon = 1/2`,
chosen action `2` — the stored probabilities sum to exactly 1. -/
theorem c7_witness :
    ((epsilon_greedy_distribution [0, 1, 2, 3] (1/2) 2).map Prod.snd).sum = 1 :=
  (c7_epsilon_greedy_update_policy_distribution [0, 1, 2, 3] (1/2) 2
    (fun _ : ℕ => []) 0 (by norm_num) (by norm_num) (by decide) (by decide)).2.2.1

/-! ### C8 — greedy improvement ties break to the first maximal action -/

/-- Folding `py_max_step` from a seeded best yields either the seed (when
nothing beats it strictly) or the first strictly-greater element of the
remaining list that no later element strictly exceeds. -/
theorem py_max_step_foldl {A : Type} :
    ∀ (l : List (A × ℚ)) (b : A × ℚ),
      ∃ c, l.foldl py_max_step (some b) = some c
        ∧ ((c = b ∧ ∀ x ∈ l, x.2 ≤ b.2)
           ∨ ∃ l1 l2, l = l1 ++ c :: l2 ∧ b.2 < c.2
               ∧ (∀ x ∈ l1, x.2 < c.2) ∧ (∀ x ∈ l2, x.2 ≤ c.2)) := by
  intro l
  induction l with
  | nil => exact fun b => ⟨b, rfl, .inl ⟨rfl, by simp⟩⟩
  | cons x rest ih =>
    intro b
    simp only [List.foldl_cons]
    by_cases hgt : x.2 > b.2
    · rw [show py_max_step (some b) x = some x by simp [py_max_step, hgt]]
      obtain ⟨c, hc, hcase⟩ := ih x
      refine ⟨c, hc, .inr ?_⟩
      rcases hcase with ⟨rfl, hall⟩ | ⟨l1, l2, hsplit, hlt, hl1, hl2⟩
      · exact ⟨[], rest, by simp, hgt, by simp, hall⟩
      · refine ⟨x :: l1, l2, by rw [hsplit, List.cons_append], lt_trans hgt hlt, ?_, hl2⟩
        intro y hy
        rcases List.mem_cons.mp hy with rfl | hy2
        · exact hlt
        · exact hl1 y hy2
    · have hle : x.2 ≤ b.2 := not_lt.mp hgt
      rw [show py_max_step (some b) x = some b by simp [py_max_step, hgt]]
      obtain ⟨c, hc, hcase⟩ := ih b
      refine ⟨c, hc, ?_⟩
      rcases hcase with ⟨rfl, hall⟩ | ⟨l1, l2, hsplit, hlt, hl1, hl2⟩
      · refine .inl ⟨rfl, ?_⟩
        intro y hy
        rcases List.mem_cons.mp hy with rfl | hy2
        · exact hle
        · exact hall y hy2
      · refine .inr ⟨x :: l1, l2, by rw [hsplit, List.cons_append], hlt, ?_, hl2⟩
        intro y hy
        rcases List.mem_cons.mp hy with rfl | hy2
        · exact lt_of_le_of_lt hle hlt
        · exact hl1 y hy2

/-- C8: in the improvement phase of policy iteration, value iteration and
MC basic, the action handed to `policy.update_policy` is the *first*
action, in the environment's declared action order, among those attaining
the maximal action value — a stable scan, never a random draw: the
declared action list splits around the chosen action so that everything
before it is strictly below and nothing anywhere is above. -/
theorem c8_improvement_chooses_first_maximal_action {A : Type}
    (actions : List A) (action_value : A → ℚ) (h : actions ≠ []) :
    ∃ l1 chosen l2, actions = l1 ++ chosen :: l2
      ∧ improvement_chosen_action actions action_value
          = some (chosen, action_value chosen)
      ∧ (∀ b ∈ l1, action_value b < action_value chosen)
      ∧ (∀ b ∈ actions, action_value b ≤ action_value chosen) := by
  match actions with
  | [] => exact absurd rfl h
  | a :: rest =>
    have hunfold : improvement_chosen_action (a :: rest) action_value
        = (rest.map fun x => (x, action_value x)).foldl py_max_step
            (some (a, action_value a)) := by
      simp [improvement_chosen_action, py_max_by_val, py_max_step]
    obtain ⟨c, hc, hcase⟩ := py_max_step_foldl
      (rest.map fun x => (x, action_value x)) (a, action_value a)
    rcases hcase with ⟨rfl, hall⟩ | ⟨l1, l2, hsplit, hlt, hl1, hl2⟩
    · refine ⟨[], a, rest, by simp, by rw [hunfold, hc], by simp, ?_⟩
      intro b hb
      rcases List.mem_cons.mp hb with rfl | hb2
      · exact le_refl _
      · exact hall (b, action_value b) (List.mem_map_of_mem _ hb2)
    · obtain ⟨s1, s2, hrest, hmap1, hmap2⟩ := List.map_eq_append_iff.mp hsplit
      obtain ⟨ca, t, hs2, hpf, hmapt⟩ := List.map_eq_cons_iff.mp hmap2
      have hc2 : c = (ca, action_value ca) := hpf.symm
      subst hc2
      refine ⟨a :: s1, ca, t, by rw [hrest, hs2, List.cons_append], by rw [hunfold, hc], ?_, ?_⟩
      · intro b hb
        rcases List.mem_cons.mp hb with rfl | hb2
        · exact hlt
        · exact hl1 (b, action_value b) (by rw [← hmap1]; exact List.mem_map_of_mem _ hb2)
      · intro b hb
        rcases List.mem_cons.mp hb with rfl | hb2
        · exact le_of_lt hlt
        · rw [hrest, hs2] at hb2
          rcases List.mem_append.mp hb2 with hbs1 | hbs2
          · exact le_of_lt (hl1 (b, action_value b)
              (by rw [← hmap1]; exact List.mem_map_of_mem _ hbs1))
          · rcases List.mem_cons.mp hbs2 with rfl | hbt
            · exact le_refl _
            · exact hl2 (b, action_value b)
                (by rw [← hmapt]; exact List.mem_map_of_mem _ hbt)

/-- Witness for C8 on a concrete tie: action values `3, 5, 5` over
actions `[0, 1, 2]` — the scan must settle on an action as described. -/
theorem c8_witness :
    ∃ l1 chosen l2, ([0, 1, 2] : List ℕ) = l1 ++ chosen :: l2
      ∧ improvement_chosen_action [0, 1, 2]
          (fun a => if a = 0 then (3 : ℚ) else 5)
          = some (chosen, if chosen = 0 then (3 : ℚ) else 5)
      ∧ (∀ b ∈ l1, (if b = 0 then (3 : ℚ) else 5) < (if chosen = 0 then (3 : ℚ) else 5))
      ∧ (∀ b ∈ [0, 1, 2], (if b = 0 then (3 : ℚ) else 5) ≤ (if chosen = 0 then (3 : ℚ) else 5)) :=
  c8_improvement_chooses_first_maximal_action [0, 1, 2]
    (fun a => if a = 0 then (3 : ℚ) else 5) (by decide)

/-! ### C6 — the SARSA table update -/

/-- The final table of a SARSA episode is the left fold of the per-sample
update over the episode's sampled transitions, in order. -/
theorem sarsa_episode_foldl {S A : Type} [DecidableEq S] [DecidableEq A]
    (π : ℕ → S → A) (learning_rate discount_factor : ℚ)
    (end_trajectory_at_terminal_state : Bool) :
    ∀ (fuel k : ℕ) (env : Env S A) (s0 : S) (q0 : S → A → ℚ),
      (sarsa_episode π learning_rate discount_factor
        end_trajectory_at_terminal_state fuel k env s0 q0).1
      = (sarsa_episode π learning_rate discount_factor
          end_trajectory_at_terminal_state fuel k env s0 q0).2.2.2.foldl
          (sarsa_step_update learning_rate discount_factor) q0 := by
  intro fuel
  induction fuel with
  | zero => intro k env s0 q0; rfl
  | succ fuel ih =>
    intro k env s0 q0
    simp only [sarsa_episode]
    by_cases hterm : (end_trajectory_at_terminal_state
        && at_terminal_state (get_experience_sample_from_state π k env s0).2.1) = true
    · simp only [hterm, if_true, List.foldl_cons, List.foldl_nil]
    · simp only [Bool.not_eq_true] at hterm
      simp only [hterm, Bool.false_eq_true, if_false, List.foldl_cons]
      exact ih _ _ _ _

/-- C6: every sampled transition `(s, a, r', s', a')` of a SARSA episode
updates the table by exactly
`Q(s,a) ← Q(s,a) − α·(Q(s,a) − r' − γ·Q(s',a'))` and touches no other
entry, and the episode's final table is the fold of exactly one such
update per executed step, in step order. -/
theorem c6_sarsa_updates_once_per_step {S A : Type} [DecidableEq S] [DecidableEq A]
    (π : ℕ → S → A) (learning_rate discount_factor : ℚ)
    (end_trajectory_at_terminal_state : Bool) (fuel k : ℕ) (env : Env S A)
    (s0 : S) (q0 : S → A → ℚ) :
    ((sarsa_episode π learning_rate discount_factor
        end_trajectory_at_terminal_state fuel k env s0 q0).1
      = (sarsa_episode π learning_rate discount_factor
          end_trajectory_at_terminal_state fuel k env s0 q0).2.2.2.foldl
          (sarsa_step_update learning_rate discount_factor) q0)
    ∧ (∀ (q : S → A → ℚ) (e : Exp5 S A),
        sarsa_step_update learning_rate discount_factor q e e.s e.a
          = q e.s e.a
            - learning_rate * (q e.s e.a - e.r - discount_factor * q e.sNext e.aNext))
    ∧ (∀ (q : S → A → ℚ) (e : Exp5 S A) (t : S) (b : A),
        ¬(t = e.s ∧ b = e.a) →
        sarsa_step_update learning_rate discount_factor q e t b = q t b) := by
  refine ⟨sarsa_episode_foldl π learning_rate discount_factor
    end_trajectory_at_terminal_state fuel k env s0 q0, ?_, ?_⟩
  · intro q e
    simp [sarsa_step_update]
  · intro q e t b h
    simp only [sarsa_step_update, if_neg h]

/-- Witness for C6 on the line world: two steps with the always-advance
oracle, plus the locality conclusion at the untouched entry `(2, 0)`. -/
theorem c6_witness :
    ((sarsa_episode (fun _ _ => 1) (1/2) (9/10) true 2 0 lineEnv 0
        (fun _ _ => 0)).1
      = (sarsa_episode (fun _ _ => 1) (1/2) (9/10) true 2 0 lineEnv 0
          (fun _ _ => 0)).2.2.2.foldl (sarsa_step_update (1/2) (9/10))
          (fun _ _ => 0))
    ∧ sarsa_step_update (1/2) (9/10) (fun _ _ => (0 : ℚ))
        ⟨0, 1, 1, 1, 1⟩ 2 0 = 0 :=
  have h := c6_sarsa_updates_once_per_step (fun _ _ => 1) (1/2) (9/10) true 2 0
    lineEnv 0 (fun _ _ => 0)
  ⟨h.1, h.2.2 (fun _ _ => 0) ⟨0, 1, 1, 1, 1⟩ 2 0 (by decide)⟩

/-! ### C3 — MC basic averages discounted returns of fixed-start
trajectories -/

/-- The trajectory loop only ever appends: its result extends the
accumulator it started from. -/
theorem generate_trajectory_sars_loop_prefix {S A : Type} (π : ℕ → S → A)
    (end_at_terminal_steps : Bool) :
    ∀ (fuel k : ℕ) (env : Env S A) (acc : List (Exp4 S A)),
      ∃ suffix,
        (generate_trajectory_sars_loop π end_at_terminal_steps fuel k env acc).1
          = acc ++ suffix := by
  intro fuel
  induction fuel with
  | zero => exact fun k env acc => ⟨[], (List.append_nil acc).symm⟩
  | succ fuel ih =>
    intro k env acc
    simp only [generate_trajectory_sars_loop]
    by_cases hterm : (end_at_terminal_steps
        && at_terminal_state (get_experience_sample_sars π k env false).2.1) = true
    · exact ⟨[(get_experience_sample_sars π k env false).1], by simp [hterm]⟩
    · simp only [Bool.not_eq_true] at hterm
      obtain ⟨suffix, hs⟩ := ih (get_experience_sample_sars π k env false).2.2
        (get_experience_sample_sars π k env false).2.1
        (acc ++ [(get_experience_sample_sars π k env false).1])
      exact ⟨(get_experience_sample_sars π k env false).1 :: suffix, by
        simp [hterm, hs]⟩

/-- With a positive step budget, a fixed-start trajectory is nonempty and
its first entry carries exactly the requested start state and start
action. -/
theorem generate_trajectory_from_head {S A : Type} (π : ℕ → S → A) (k : ℕ)
    (env : Env S A) (start_state : S) (start_action : A) (max_steps : ℕ)
    (end_at_terminal_steps : Bool) (h : 1 ≤ max_steps) :
    ∃ e rest,
      (generate_trajectory_from π k env start_state start_action max_steps
        end_at_terminal_steps).1 = e :: rest
      ∧ e.s = start_state ∧ e.a = start_action := by
  match max_steps, h with
  | fuel + 1, _ =>
    simp only [generate_trajectory_from]
    by_cases hterm : (end_at_terminal_steps
        && at_terminal_state (take_action (update_state env start_state) start_action).1)
        = true
    · exact ⟨⟨start_state, start_action,
        (take_action (update_state env start_state) start_action).2,
        get_current_state (take_action (update_state env start_state) start_action).1⟩,
        [], by simp [hterm], rfl, rfl⟩
    · simp only [Bool.not_eq_true] at hterm
      obtain ⟨suffix, hs⟩ := generate_trajectory_sars_loop_prefix π
        end_at_terminal_steps fuel k
        (take_action (update_state env start_state) start_action).1
        [⟨start_state, start_action,
          (take_action (update_state env start_state) start_action).2,
          get_current_state (take_action (update_state env start_state) start_action).1⟩]
      exact ⟨⟨start_state, start_action,
        (take_action (update_state env start_state) start_action).2,
        get_current_state (take_action (update_state env start_state) start_action).1⟩,
        suffix, by simp only [hterm, Bool.false_eq_true, if_false]; exact hs,
        rfl, rfl⟩

/-- The evaluation loop's returns are precisely the discounted returns of
the trajectories it samples (and both loops thread the environment and
draw counter identically). -/
theorem mc_basic_returns_eq_map {S A : Type} (π : ℕ → S → A) (s : S) (a : A)
    (discount_factor : ℚ) (max_steps : ℕ) (endT : Bool) :
    ∀ (n k : ℕ) (env : Env S A),
      (mc_basic_returns π s a discount_factor max_steps endT n k env).1
        = ((mc_basic_trajectories π s a discount_factor max_steps endT n k env).1).map
            (discounted_return discount_factor)
      ∧ (mc_basic_returns π s a discount_factor max_steps endT n k env).2
        = (mc_basic_trajectories π s a discount_factor max_steps endT n k env).2 := by
  intro n
  induction n with
  | zero => exact fun k env => ⟨rfl, rfl⟩
  | succ n ih =>
    intro k env
    simp only [mc_basic_returns, mc_basic_trajectories, List.map_cons]
    exact ⟨by rw [(ih _ _).1], (ih _ _).2⟩

/-- The evaluation loop samples exactly `n` trajectories. -/
theorem mc_basic_trajectories_length {S A : Type} (π : ℕ → S → A) (s : S)
    (a : A) (discount_factor : ℚ) (max_steps : ℕ) (endT : Bool) :
    ∀ (n k : ℕ) (env : Env S A),
      ((mc_basic_trajectories π s a discount_factor max_steps endT n k env).1).length
        = n := by
  intro n
  induction n with
  | zero => exact fun k env => rfl
  | succ n ih =>
    intro k env
    simp only [mc_basic_trajectories, List.length_cons, ih]

/-- Every trajectory the evaluation loop samples starts at the requested
pair. -/
theorem mc_basic_trajectories_start {S A : Type} (π : ℕ → S → A) (s : S)
    (a : A) (discount_factor : ℚ) (max_steps : ℕ) (endT : Bool)
    (hfuel : 1 ≤ max_steps) :
    ∀ (n k : ℕ) (env : Env S A),
      ∀ t ∈ (mc_basic_trajectories π s a discount_factor max_steps endT n k env).1,
        ∃ e rest, t = e :: rest ∧ e.s = s ∧ e.a = a := by
  intro n
  induction n with
  | zero => intro k env t ht; cases ht
  | succ n ih =>
    intro k env t ht
    simp only [mc_basic_trajectories, List.mem_cons] at ht
    rcases ht with rfl | ht
    · obtain ⟨e, rest, heq, hs, ha⟩ := generate_trajectory_from_head π k env s a
        max_steps endT hfuel
      exact ⟨e, rest, heq, hs, ha⟩
    · exact ih _ _ t ht

/-- C3: `mc_basic` estimates the action value of `(s, a)` as the
arithmetic mean of the discounted returns (`g ← γ·g + r`, computed
backward) of `num_samples_per_iteration` trajectories, each generated by
the fixed-start sampler so that it begins exactly at state `s` with first
action `a`. -/
theorem c3_mc_basic_action_value_is_mean_of_returns {S A : Type}
    (π : ℕ → S → A) (s : S) (a : A) (discount_factor : ℚ)
    (num_samples_per_iteration max_steps_in_trajectory : ℕ)
    (end_trajectory_at_terminal_state : Bool) (k : ℕ) (env : Env S A)
    (hfuel : 1 ≤ max_steps_in_trajectory) :
    mc_basic_action_value π s a discount_factor num_samples_per_iteration
        max_steps_in_trajectory end_trajectory_at_terminal_state k env
      = ((mc_basic_returns π s a discount_factor max_steps_in_trajectory
          end_trajectory_at_terminal_state num_samples_per_iteration k env).1).sum
        / num_samples_per_iteration
    ∧ ((mc_basic_returns π s a discount_factor max_steps_in_trajectory
        end_trajectory_at_terminal_state num_samples_per_iteration k env).1).length
      = num_samples_per_iteration
    ∧ (mc_basic_returns π s a discount_factor max_steps_in_trajectory
        end_trajectory_at_terminal_state num_samples_per_iteration k env).1
      = ((mc_basic_trajectories π s a discount_factor max_steps_in_trajectory
          end_trajectory_at_terminal_state num_samples_per_iteration k env).1).map
          (discounted_return discount_factor)
    ∧ ∀ t ∈ (mc_basic_trajectories π s a discount_factor max_steps_in_trajectory
        end_trajectory_at_terminal_state num_samples_per_iteration k env).1,
        ∃ e rest, t = e :: rest ∧ e.s = s ∧ e.a = a := by
  have hmap := mc_basic_returns_eq_map π s a discount_factor
    max_steps_in_trajectory end_trajectory_at_terminal_state
    num_samples_per_iteration k env
  have hlen : ((mc_basic_returns π s a discount_factor max_steps_in_trajectory
      end_trajectory_at_terminal_state num_samples_per_iteration k env).1).length
      = num_samples_per_iteration := by
    rw [hmap.1, List.length_map]
    exact mc_basic_trajectories_length π s a discount_factor
      max_steps_in_trajectory end_trajectory_at_terminal_state
      num_samples_per_iteration k env
  refine ⟨?_, hlen, hmap.1,
    mc_basic_trajectories_start π s a discount_factor max_steps_in_trajectory
      end_trajectory_at_terminal_state hfuel num_samples_per_iteration k env⟩
  rw [mc_basic_action_value, hlen]

/-- Witness for C3 on the line world: three samples of the two-step
trajectory from `(0, 1)`. -/
theorem c3_witness :
    mc_basic_action_value (fun _ _ => 1) 0 1 (9/10) 3 2 true 0 lineEnv
      = ((mc_basic_returns (fun _ _ => 1) 0 1 (9/10) 2 true 3 0 lineEnv).1).sum / 3 :=
  (c3_mc_basic_action_value_is_mean_of_returns (fun _ _ => 1) 0 1 (9/10) 3 2
    true 0 lineEnv (by norm_num)).1

/-! ### C5 — sarsa trajectories are back-patch consistent -/

/-- Adjacent-entry consistency of a sarsa trajectory: every entry's
trailing next-action equals the following entry's action. -/
def sarsa_consistent {S A : Type} (tr : List (Exp5 S A)) : Prop :=
  ∀ (i : ℕ) (e1 e2 : Exp5 S A),
    tr[i]? = some e1 → tr[i + 1]? = some e2 → e1.aNext = e2.a

theorem backpatch_length {S A : Type} :
    ∀ (tr : List (Exp5 S A)) (a : A), (backpatch tr a).length = tr.length
  | [], _ => rfl
  | [_], _ => rfl
  | e :: e2 :: rest, a => by
    simp only [backpatch, List.length_cons, backpatch_length (e2 :: rest) a]

/-- Back-patching only touches the last entry: earlier positions are
unchanged. -/
theorem backpatch_getElem?_lt {S A : Type} :
    ∀ (tr : List (Exp5 S A)) (a : A) (i : ℕ), i + 1 < tr.length →
      (backpatch tr a)[i]? = tr[i]?
  | [], _, _, h => by simp at h
  | [_], _, i, h => by simp at h
  | _ :: _ :: _, _, 0, _ => by simp [backpatch]
  | e :: e2 :: rest, a, i + 1, h => by
    simp only [backpatch, List.getElem?_cons_succ]
    exact backpatch_getElem?_lt (e2 :: rest) a i
      (by simp only [List.length_cons] at h ⊢; omega)

/-- Back-patching never changes the action field at any position. -/
theorem backpatch_getElem?_a {S A : Type} :
    ∀ (tr : List (Exp5 S A)) (a : A) (i : ℕ),
      ((backpatch tr a)[i]?).map Exp5.a = (tr[i]?).map Exp5.a
  | [], _, _ => rfl
  | [_], _, 0 => by simp [backpatch, set_next_action]
  | [_], _, _ + 1 => by simp [backpatch]
  | _ :: _ :: _, _, 0 => by simp [backpatch]
  | e :: e2 :: rest, a, i + 1 => by
    simp only [backpatch, List.getElem?_cons_succ]
    exact backpatch_getElem?_a (e2 :: rest) a i

/-- Back-patching rewrites the last entry's next-action field. -/
theorem backpatch_getElem?_last {S A : Type} :
    ∀ (tr : List (Exp5 S A)) (a : A) (e : Exp5 S A),
      tr[tr.length - 1]? = some e →
      (backpatch tr a)[tr.length - 1]? = some (set_next_action e a)
  | [], _, _, h => by simp at h
  | [e1], a, e, h => by
    simp only [List.length_cons, List.length_nil, Nat.zero_add, Nat.sub_self] at h ⊢
    simp only [List.getElem?_cons_zero, Option.some.injEq] at h
    simp only [backpatch, List.getElem?_cons_zero, Option.some.injEq]
    rw [h]
  | e1 :: e2 :: rest, a, e, h => by
    have hlen : (e1 :: e2 :: rest).length - 1 = ((e2 :: rest).length - 1) + 1 := by
      simp only [List.length_cons]
      omega
    rw [hlen] at h ⊢
    simp only [backpatch, List.getElem?_cons_succ] at h ⊢
    exact backpatch_getElem?_last (e2 :: rest) a e h

/-- Appending a fresh sample after back-patching the previous last entry
with its action preserves adjacent-entry consistency. -/
theorem sarsa_consistent_step {S A : Type} (acc : List (Exp5 S A))
    (e : Exp5 S A) (h : sarsa_consistent acc) :
    sarsa_consistent (backpatch acc e.a ++ [e]) := by
  intro i e1 e2 h1 h2
  have hbl : (backpatch acc e.a).length = acc.length := backpatch_length acc e.a
  rcases lt_trichotomy (i + 1) acc.length with hlt | heq | hgt
  · rw [List.getElem?_append, if_pos (by omega)] at h1
    rw [List.getElem?_append, if_pos (by omega)] at h2
    rw [backpatch_getElem?_lt acc e.a i hlt] at h1
    have ha := backpatch_getElem?_a acc e.a (i + 1)
    rw [h2] at ha
    cases hacc : acc[i + 1]? with
    | none => rw [hacc] at ha; simp at ha
    | some e2x =>
      rw [hacc] at ha
      simp only [Option.map_some', Option.some.injEq] at ha
      rw [h i e1 e2x h1 hacc]
      exact ha.symm
  · rw [List.getElem?_append, if_neg (by omega)] at h2
    rw [show i + 1 - (backpatch acc e.a).length = 0 by omega] at h2
    simp only [List.getElem?_cons_zero, Option.some.injEq] at h2
    rw [List.getElem?_append, if_pos (by omega)] at h1
    have hlen : i < acc.length := by omega
    have hi : i = acc.length - 1 := by omega
    obtain ⟨elast, hlast⟩ : ∃ x, acc[i]? = some x :=
      ⟨acc.get ⟨i, hlen⟩, by rw [List.getElem?_eq_getElem hlen]; rfl⟩
    have hpatch := backpatch_getElem?_last acc e.a elast (by rw [← hi]; exact hlast)
    rw [← hi] at hpatch
    rw [hpatch] at h1
    simp only [Option.some.injEq] at h1
    rw [← h1, ← h2]
    rfl
  · have hlen2 : (backpatch acc e.a ++ [e]).length = acc.length + 1 := by
      simp [hbl]
    rw [List.getElem?_eq_none (by omega)] at h2
    cases h2

/-- The sarsa trajectory loop preserves adjacent-entry consistency of its
accumulator. -/
theorem generate_trajectory_sarsa_loop_consistent {S A : Type}
    (π : ℕ → S → A) (end_at_terminal_steps : Bool) :
    ∀ (fuel k : ℕ) (env : Env S A) (acc : List (Exp5 S A)),
      sarsa_consistent acc →
      sarsa_consistent
        ((generate_trajectory_sarsa_loop π end_at_terminal_steps fuel k env acc).1) := by
  intro fuel
  induction fuel with
  | zero => exact fun k env acc h => h
  | succ fuel ih =>
    intro k env acc h
    simp only [generate_trajectory_sarsa_loop]
    by_cases hterm : (end_at_terminal_steps
        && at_terminal_state (get_experience_sample_sarsa π k env false).2.1) = true
    · simp only [hterm, if_true]
      exact sarsa_consistent_step acc _ h
    · simp only [Bool.not_eq_true] at hterm
      simp only [hterm, Bool.false_eq_true, if_false]
      exact ih _ _ _ (sarsa_consistent_step acc _ h)

/-- C5: in every trajectory produced by `generate_trajectory` in
`"sarsa"` style, each entry's trailing next-action field equals the
action actually taken in the following entry — the sampler back-patches
entry `i` with entry `i+1`'s action once the latter is sampled. -/
theorem c5_sarsa_trajectory_backpatch_consistent {S A : Type}
    (π : ℕ → S → A) (k : ℕ) (environment : Env S A) (max_steps : ℕ)
    (end_at_terminal_steps reset_to_original_state : Bool)
    (i : ℕ) (e1 e2 : Exp5 S A)
    (h1 : (generate_trajectory_sarsa π k environment max_steps
        end_at_terminal_steps reset_to_original_state).1[i]? = some e1)
    (h2 : (generate_trajectory_sarsa π k environment max_steps
        end_at_terminal_steps reset_to_original_state).1[i + 1]? = some e2) :
    e1.aNext = e2.a := by
  have hempty : sarsa_consistent ([] : List (Exp5 S A)) := by
    intro j f1 f2 hj
    simp at hj
  exact generate_trajectory_sarsa_loop_consistent π end_at_terminal_steps
    max_steps k environment [] hempty i e1 e2 h1 h2

/-- Witness for C5: with the alternating oracle on the line world, the
first two trajectory entries exist and agree as required. -/
theorem c5_witness :
    (generate_trajectory_sarsa (fun k _ => k % 2) 0 lineEnv 4 false false).1[0]?
        = some ⟨0, 0, 0, 0, 0⟩
    ∧ (generate_trajectory_sarsa (fun k _ => k % 2) 0 lineEnv 4 false false).1[1]?
        = some ⟨0, 0, 0, 0, 0⟩
    ∧ (⟨0, 0, 0, 0, 0⟩ : Exp5 ℕ ℕ).aNext = (⟨0, 0, 0, 0, 0⟩ : Exp5 ℕ ℕ).a := by
  refine ⟨by decide, by decide, ?_⟩
  exact c5_sarsa_trajectory_backpatch_consistent (fun k _ => k % 2) 0 lineEnv 4
    false false 0 ⟨0, 0, 0, 0, 0⟩ ⟨0, 0, 0, 0, 0⟩ (by decide) (by decide)

/-! ### C9 — `Policy.copy` is an independent deep snapshot -/

/-- A successful association-list lookup is a membership. -/
theorem alist_lookup_mem {K V : Type} [DecidableEq K] :
    ∀ (t : List (K × V)) (k : K) (v : V),
      alist_lookup t k = some v → (k, v) ∈ t
  | [], _, _, h => by cases h
  | p :: rest, k, v, h => by
    simp only [alist_lookup] at h
    by_cases hk : p.1 = k
    · rw [if_pos hk] at h
      simp only [Option.some.injEq] at h
      have hp : p = (k, v) := by rw [← hk, ← h]
      exact hp ▸ List.mem_cons_self p rest
    · rw [if_neg hk] at h
      exact List.mem_cons_of_mem p (alist_lookup_mem rest k v h)

/-- Writing into an association list only produces the written pair or
pairs already present. -/
theorem alist_set_mem {K V : Type} [DecidableEq K] :
    ∀ (t : List (K × V)) (k : K) (v : V) (x : K × V),
      x ∈ alist_set t k v → x ∈ t ∨ x = (k, v)
  | [], k, v, x, h => by
    simp only [alist_set, List.mem_singleton] at h
    exact .inr h
  | p :: rest, k, v, x, h => by
    simp only [alist_set] at h
    by_cases hk : p.1 = k
    · rw [if_pos hk] at h
      rcases List.mem_cons.mp h with rfl | hx
      · exact .inr rfl
      · exact .inl (List.mem_cons_of_mem p hx)
    · rw [if_neg hk] at h
      rcases List.mem_cons.mp h with hxp | hx
      · exact .inl (by rw [hxp]; exact List.mem_cons_self p rest)
      · rcases alist_set_mem rest k v x hx with hx2 | hx2
        · exact .inl (List.mem_cons_of_mem p hx2)
        · exact .inr hx2

/-- The fresh outer table written by `copy_cells` points only at
addresses at or above the allocation frontier. -/
theorem copy_cells_table_addrs {S A : Type} (h : Heap A) :
    ∀ (t : List (S × ℕ)) (n : ℕ), ∀ x ∈ (copy_cells h t n).2, n ≤ x.2
  | [], n => by intro x hx; cases hx
  | sa :: rest, n => by
    intro x hx
    simp only [copy_cells, List.mem_cons] at hx
    rcases hx with rfl | hx
    · exact le_refl n
    · exact le_trans (Nat.le_succ n) (copy_cells_table_addrs h rest (n + 1) x hx)

/-- Applying one mutation through an object whose addresses all sit at or
above `N` keeps the heap's first `N` cells intact, keeps the object's
addresses at or above `N`, and keeps the heap at least `N` cells long. -/
theorem apply_mut_inv {S A : Type} [DecidableEq S] [DecidableEq A]
    (N : ℕ) (h0 : Heap A) (hp : Heap A × PolicyObj S) (m : PolicyMut S A)
    (hcells : ∀ i, i < N → hp.1.cells[i]? = h0.cells[i]?)
    (haddrs : ∀ x ∈ hp.2.table, N ≤ x.2)
    (hlen : N ≤ hp.1.cells.length) :
    (∀ i, i < N → (apply_mut hp m).1.cells[i]? = h0.cells[i]?)
    ∧ (∀ x ∈ (apply_mut hp m).2.table, N ≤ x.2)
    ∧ N ≤ (apply_mut hp m).1.cells.length := by
  cases m with
  | update s dist =>
    refine ⟨?_, ?_, ?_⟩
    · intro i hi
      rw [show (apply_mut hp (.update s dist)).1.cells = hp.1.cells ++ [dist] from rfl,
        List.getElem?_append_left (by omega)]
      exact hcells i hi
    · intro x hx
      rcases alist_set_mem hp.2.table s hp.1.cells.length x hx with hx2 | rfl
      · exact haddrs x hx2
      · exact hlen
    · simp only [apply_mut, List.length_append, List.length_singleton]
      omega
  | write s a v =>
    cases hlook : alist_lookup hp.2.table s with
    | none =>
      simp only [apply_mut, hlook]
      exact ⟨hcells, haddrs, hlen⟩
    | some addr =>
      have haddr : N ≤ addr := haddrs (s, addr) (alist_lookup_mem _ _ _ hlook)
      simp only [apply_mut, hlook]
      refine ⟨?_, haddrs, ?_⟩
      · intro i hi
        rw [List.getElem?_set_ne (by omega)]
        exact hcells i hi
      · rw [List.length_set]
        exact hlen

/-- `apply_mut_inv`, iterated over a mutation sequence. -/
theorem apply_muts_inv {S A : Type} [DecidableEq S] [DecidableEq A]
    (N : ℕ) (h0 : Heap A) :
    ∀ (ms : List (PolicyMut S A)) (hp : Heap A × PolicyObj S),
      (∀ i, i < N → hp.1.cells[i]? = h0.cells[i]?) →
      (∀ x ∈ hp.2.table, N ≤ x.2) →
      N ≤ hp.1.cells.length →
      (∀ i, i < N → (apply_muts hp ms).1.cells[i]? = h0.cells[i]?)
      ∧ (∀ x ∈ (apply_muts hp ms).2.table, N ≤ x.2)
      ∧ N ≤ (apply_muts hp ms).1.cells.length := by
  intro ms
  induction ms with
  | nil => exact fun hp hc ha hl => ⟨hc, ha, hl⟩
  | cons m rest ih =>
    intro hp hc ha hl
    obtain ⟨hc2, ha2, hl2⟩ := apply_mut_inv N h0 hp m hc ha hl
    exact ih (apply_mut hp m) hc2 ha2 hl2

/-- C9: `policy.copy()` (deepcopy) yields an independent snapshot — for
every sequence of mutations applied through the copy (`update_policy`
rebinds, direct inner-dict writes), every per-state distribution the
original policy reads (`get_action_probabilities`) is exactly what it was
before the copy. -/
theorem c9_policy_copy_independent_of_copy_mutations {S A : Type}
    [DecidableEq S] [DecidableEq A] (h : Heap A) (p : PolicyObj S)
    (ms : List (PolicyMut S A))
    (hwf : ∀ x ∈ p.table, x.2 < h.cells.length) :
    ∀ s, read_dist (apply_muts (policy_deepcopy h p) ms).1 p s
        = read_dist h p s := by
  intro s
  have hinit_cells : ∀ i, i < h.cells.length →
      (policy_deepcopy h p).1.cells[i]? = h.cells[i]? := by
    intro i hi
    rw [show (policy_deepcopy h p).1.cells
        = h.cells ++ (copy_cells h p.table h.cells.length).1 from rfl,
      List.getElem?_append_left hi]
  have hinit_addrs : ∀ x ∈ (policy_deepcopy h p).2.table, h.cells.length ≤ x.2 :=
    copy_cells_table_addrs h p.table h.cells.length
  have hinit_len : h.cells.length ≤ (policy_deepcopy h p).1.cells.length := by
    rw [show (policy_deepcopy h p).1.cells
        = h.cells ++ (copy_cells h p.table h.cells.length).1 from rfl,
      List.length_append]
    omega
  obtain ⟨hc, _, _⟩ := apply_muts_inv h.cells.length h ms (policy_deepcopy h p)
    hinit_cells hinit_addrs hinit_len
  rw [read_dist, read_dist]
  cases hlook : alist_lookup p.table s with
  | none => rfl
  | some addr =>
    have haddr : addr < h.cells.length :=
      hwf (s, addr) (alist_lookup_mem _ _ _ hlook)
    simp only [Option.map_some']
    rw [heap_read, heap_read, List.getD_eq_getElem?_getD, List.getD_eq_getElem?_getD,
      hc addr haddr]

/-- Witness for C9: one original cell, a direct write and a rebind
through the copy — the original's distribution for state `0` is
untouched. -/
theorem c9_witness :
    read_dist
      (apply_muts (policy_deepcopy (⟨[[(0, 1/2), (1, 1/2)]]⟩ : Heap ℕ)
          (⟨[(0, 0)]⟩ : PolicyObj ℕ))
        [.write 0 0 (3/4), .update 0 [(0, 1)]]).1
      (⟨[(0, 0)]⟩ : PolicyObj ℕ) 0
    = read_dist (⟨[[(0, 1/2), (1, 1/2)]]⟩ : Heap ℕ) (⟨[(0, 0)]⟩ : PolicyObj ℕ) 0 :=
  c9_policy_copy_independent_of_copy_mutations
    (⟨[[(0, 1/2), (1, 1/2)]]⟩ : Heap ℕ) (⟨[(0, 0)]⟩ : PolicyObj ℕ)
    [.write 0 0 (3/4), .update 0 [(0, 1)]] (by decide) 0

/-! ### C4 — MC exploring starts: unvisited-pair check and round-robin
coverage -/

/-- The "pairs never visited" list is empty iff every declared pair has a
recorded return. -/
theorem mc_es_not_visited_eq_nil_iff {S A : Type} [DecidableEq S] [DecidableEq A]
    (actions : List A) (ret : S → A → List ℚ) :
    ∀ states : List S,
      mc_es_not_visited states actions ret = []
        ↔ ∀ s ∈ states, ∀ a ∈ actions, ret s a ≠ [] := by
  intro states
  induction states with
  | nil => simp [mc_es_not_visited]
  | cons s rest ih =>
    simp only [mc_es_not_visited, List.foldr_cons, List.append_eq_nil,
      List.mem_cons] at *
    rw [ih, List.filterMap_eq_nil_iff]
    constructor
    · rintro ⟨h1, h2⟩ t ht a ha
      rcases ht with rfl | ht
      · have := h1 a ha
        by_cases hempty : ret t a = []
        · rw [if_pos hempty] at this; cases this
        · exact hempty
      · exact h2 t ht a ha
    · rintro h
      refine ⟨fun a ha => ?_, fun t ht a ha => h t (.inr ht) a ha⟩
      rw [if_neg (h s (.inl rfl) a ha)]

/-- Indexing a nonempty list at any index reduced modulo its length
succeeds. -/
theorem getElem?_mod_isSome {α : Type} (l : List α) (i : ℕ) (h : l ≠ []) :
    ∃ x, l[i % l.length]? = some x := by
  have hlen : 0 < l.length := List.length_pos.mpr h
  have hidx : i % l.length < l.length := Nat.mod_lt i hlen
  exact ⟨_, List.getElem?_eq_getElem hidx⟩

/-- The trajectory loop never touches the environment's declared state
and action lists. -/
theorem generate_trajectory_sars_loop_env {S A : Type} (π : ℕ → S → A)
    (endT : Bool) :
    ∀ (fuel k : ℕ) (env : Env S A) (acc : List (Exp4 S A)),
      ((generate_trajectory_sars_loop π endT fuel k env acc).2.1).states = env.states
      ∧ ((generate_trajectory_sars_loop π endT fuel k env acc).2.1).actions
          = env.actions := by
  intro fuel
  induction fuel with
  | zero => exact fun k env acc => ⟨rfl, rfl⟩
  | succ fuel ih =>
    intro k env acc
    simp only [generate_trajectory_sars_loop]
    by_cases hterm : (endT
        && at_terminal_state (get_experience_sample_sars π k env false).2.1) = true
    · simp only [hterm, if_true]
      exact ⟨rfl, rfl⟩
    · simp only [Bool.not_eq_true] at hterm
      simp only [hterm, Bool.false_eq_true, if_false]
      exact ih _ _ _

/-- Fixed-start trajectory generation never touches the environment's
declared state and action lists. -/
theorem generate_trajectory_from_env {S A : Type} (π : ℕ → S → A) (k : ℕ)
    (env : Env S A) (s0 : S) (a0 : A) (max_steps : ℕ) (endT : Bool) :
    ((generate_trajectory_from π k env s0 a0 max_steps endT).2.1).states = env.states
    ∧ ((generate_trajectory_from π k env s0 a0 max_steps endT).2.1).actions
        = env.actions := by
  match max_steps with
  | 0 => exact ⟨rfl, rfl⟩
  | fuel + 1 =>
    simp only [generate_trajectory_from]
    by_cases hterm : (endT
        && at_terminal_state (take_action (update_state env s0) a0).1) = true
    · simp only [hterm, if_true]
      exact ⟨rfl, rfl⟩
    · simp only [Bool.not_eq_true] at hterm
      simp only [hterm, Bool.false_eq_true, if_false]
      exact generate_trajectory_sars_loop_env π endT fuel k _ _

/-- Every-visit accumulation only appends: a pair with a recorded return
keeps one. -/
theorem accumulate_returns_mono {S A : Type} [DecidableEq S] [DecidableEq A]
    (discount_factor : ℚ) :
    ∀ (tr : List (Exp4 S A)) (st : (S → A → List ℚ) × ℚ) (s : S) (a : A),
      st.1 s a ≠ [] → (accumulate_returns discount_factor tr st).1 s a ≠ [] := by
  intro tr
  induction tr with
  | nil => exact fun st s a h => h
  | cons e rest ih =>
    intro st s a h
    simp only [accumulate_returns, append_return]
    by_cases hcond : s = e.s ∧ a = e.a
    · simp only [if_pos hcond]
      simp
    · simp only [if_neg hcond]
      exact ih st s a h

/-- Every-visit accumulation records a return for the trajectory's first
entry. -/
theorem accumulate_returns_head {S A : Type} [DecidableEq S] [DecidableEq A]
    (discount_factor : ℚ) (e : Exp4 S A) (rest : List (Exp4 S A))
    (st : (S → A → List ℚ) × ℚ) :
    (accumulate_returns discount_factor (e :: rest) st).1 e.s e.a ≠ [] := by
  simp only [accumulate_returns, append_return, if_pos (And.intro rfl rfl)]
  simp

/-- One `mc_exploring_starts` episode over nonempty state/action lists:
the environment's declared lists survive, the round-robin indices advance
as in the source, and existing returns survive. -/
theorem mc_es_episode_shape {S A : Type} [DecidableEq S] [DecidableEq A]
    (π : ℕ → S → A) (discount_factor : ℚ) (fuel : ℕ) (endT : Bool)
    (st : MCESState S A) (Ss : List S) (As : List A)
    (hstates : st.env.states = Ss) (hactions : st.env.actions = As)
    (hSs : Ss ≠ []) (hAs : As ≠ []) :
    (mc_es_episode π discount_factor fuel endT st).env.states = Ss
    ∧ (mc_es_episode π discount_factor fuel endT st).env.actions = As
    ∧ (mc_es_episode π discount_factor fuel endT st).start_action_index
        = st.start_action_index + 1
    ∧ (mc_es_episode π discount_factor fuel endT st).start_state_index
        = (if (st.start_action_index + 1) % As.length = 0
           then st.start_state_index + 1 else st.start_state_index)
    ∧ ∀ (s : S) (a : A), st.returns s a ≠ [] →
        (mc_es_episode π discount_factor fuel endT st).returns s a ≠ [] := by
  obtain ⟨s0, hs0⟩ := getElem?_mod_isSome Ss st.start_state_index hSs
  obtain ⟨a0, ha0⟩ := getElem?_mod_isSome As st.start_action_index hAs
  simp only [mc_es_episode, hstates, hactions, hs0, ha0]
  have henv := generate_trajectory_from_env π st.k st.env s0 a0 fuel endT
  refine ⟨by rw [henv.1]; exact hstates, by rw [henv.2]; exact hactions,
    trivial, trivial, ?_⟩
  intro s a h
  exact accumulate_returns_mono discount_factor _ _ s a h

/-- One episode started at the pair selected by the current round-robin
indices records a return for that pair (given a positive step budget). -/
theorem mc_es_episode_covers {S A : Type} [DecidableEq S] [DecidableEq A]
    (π : ℕ → S → A) (discount_factor : ℚ) (fuel : ℕ) (endT : Bool)
    (st : MCESState S A) (s : S) (a : A)
    (hs : st.env.states[st.start_state_index % st.env.states.length]? = some s)
    (ha : st.env.actions[st.start_action_index % st.env.actions.length]? = some a)
    (hfuel : 1 ≤ fuel) :
    (mc_es_episode π discount_factor fuel endT st).returns s a ≠ [] := by
  simp only [mc_es_episode, hs, ha]
  obtain ⟨e, rest, heq, hes, hea⟩ := generate_trajectory_from_head π st.k st.env
    s a fuel endT hfuel
  rw [heq]
  have := accumulate_returns_head discount_factor e rest (st.returns, 0)
  rw [hes, hea] at this
  exact this

/-- One episode keeps existing returns (both the round-robin branch and
the degenerate empty-list branch). -/
theorem mc_es_episode_mono {S A : Type} [DecidableEq S] [DecidableEq A]
    (π : ℕ → S → A) (discount_factor : ℚ) (fuel : ℕ) (endT : Bool)
    (st : MCESState S A) (s : S) (a : A) (h : st.returns s a ≠ []) :
    (mc_es_episode π discount_factor fuel endT st).returns s a ≠ [] := by
  simp only [mc_es_episode]
  split
  · exact accumulate_returns_mono discount_factor _ _ s a h
  · exact h

/-- The episode loop keeps existing returns. -/
theorem mc_es_run_mono {S A : Type} [DecidableEq S] [DecidableEq A]
    (π : ℕ → S → A) (discount_factor : ℚ) (fuel : ℕ) (endT : Bool) :
    ∀ (n : ℕ) (st : MCESState S A) (s : S) (a : A),
      st.returns s a ≠ [] →
      (mc_es_run π discount_factor fuel endT n st).returns s a ≠ [] := by
  intro n
  induction n with
  | zero => exact fun st s a h => h
  | succ n ih =>
    intro st s a h
    simp only [mc_es_run]
    exact ih _ s a (mc_es_episode_mono π discount_factor fuel endT st s a h)

/-- Running at least `j + 1` more episodes from a state whose round-robin
indices stand at episode `e` records a return for the start pair of
episode `e + j`. -/
theorem mc_es_run_covers {S A : Type} [DecidableEq S] [DecidableEq A]
    (π : ℕ → S → A) (discount_factor : ℚ) (fuel : ℕ) (endT : Bool)
    (Ss : List S) (As : List A) (hfuel : 1 ≤ fuel)
    (hSs : Ss ≠ []) (hAs : As ≠ []) :
    ∀ (n e : ℕ) (st : MCESState S A) (j : ℕ) (s : S) (a : A),
      st.env.states = Ss → st.env.actions = As →
      st.start_action_index = e → st.start_state_index = e / As.length →
      j < n →
      Ss[((e + j) / As.length) % Ss.length]? = some s →
      As[(e + j) % As.length]? = some a →
      (mc_es_run π discount_factor fuel endT n st).returns s a ≠ [] := by
  intro n
  induction n with
  | zero => intro e st j s a _ _ _ _ hj; omega
  | succ n ih =>
    intro e st j s a hstates hactions hai hsi hj hs ha
    simp only [mc_es_run]
    cases j with
    | zero =>
      apply mc_es_run_mono
      apply mc_es_episode_covers π discount_factor fuel endT st s a _ _ hfuel
      · rw [hstates, hsi]
        simpa using hs
      · rw [hactions, hai]
        simpa using ha
    | succ jx =>
      obtain ⟨hst, hac, hidxA, hidxS, _⟩ := mc_es_episode_shape π discount_factor
        fuel endT st Ss As hstates hactions hSs hAs
      apply ih (e + 1) _ jx s a hst hac
      · rw [hidxA, hai]
      · rw [hidxS, hai, hsi, Nat.succ_div]
        by_cases hdvd : As.length ∣ e + 1
        · rw [if_pos hdvd, if_pos (Nat.dvd_iff_mod_eq_zero.mp hdvd)]
        · rw [if_neg (fun hmod => hdvd (Nat.dvd_iff_mod_eq_zero.mpr hmod)),
            if_neg hdvd]
          omega
      · omega
      · rw [show e + 1 + jx = e + (jx + 1) by omega]
        exact hs
      · rw [show e + 1 + jx = e + (jx + 1) by omega]
        exact ha

/-- C4: `mc_exploring_starts` returns normally iff, after its episodes,
every declared (state, action) pair has at least one recorded return;
any raised error names a nonempty list of unvisited pairs; and when run
with its deterministic round-robin start schedule for at least
`|states| × |actions|` episodes with a positive step budget, it never
raises. -/
theorem c4_mc_exploring_starts_visitation {S A : Type}
    [DecidableEq S] [DecidableEq A] (π : ℕ → S → A) (environment : Env S A)
    (discount_factor : ℚ) (num_episodes max_steps_in_trajectory : ℕ)
    (end_trajectory_at_terminal_state : Bool) :
    ((mc_exploring_starts π environment discount_factor num_episodes
        max_steps_in_trajectory end_trajectory_at_terminal_state).isOk = true
      ↔ ∀ s ∈ environment.states, ∀ a ∈ environment.actions,
          (mc_es_run π discount_factor max_steps_in_trajectory
            end_trajectory_at_terminal_state num_episodes
            ⟨fun _ _ => [], environment, 0, 0, 0⟩).returns s a ≠ [])
    ∧ (∀ nv, mc_exploring_starts π environment discount_factor num_episodes
        max_steps_in_trajectory end_trajectory_at_terminal_state = .error nv →
        nv ≠ [])
    ∧ (1 ≤ max_steps_in_trajectory →
       environment.states.length * environment.actions.length ≤ num_episodes →
       (mc_exploring_starts π environment discount_factor num_episodes
         max_steps_in_trajectory end_trajectory_at_terminal_state).isOk = true) := by
  have hchar := mc_es_not_visited_eq_nil_iff environment.actions
    (mc_es_run π discount_factor max_steps_in_trajectory
      end_trajectory_at_terminal_state num_episodes
      ⟨fun _ _ => [], environment, 0, 0, 0⟩).returns environment.states
  have hA : (mc_exploring_starts π environment discount_factor num_episodes
        max_steps_in_trajectory end_trajectory_at_terminal_state).isOk = true
      ↔ ∀ s ∈ environment.states, ∀ a ∈ environment.actions,
          (mc_es_run π discount_factor max_steps_in_trajectory
            end_trajectory_at_terminal_state num_episodes
            ⟨fun _ _ => [], environment, 0, 0, 0⟩).returns s a ≠ [] := by
    by_cases hnv : mc_es_not_visited environment.states environment.actions
        (mc_es_run π discount_factor max_steps_in_trajectory
          end_trajectory_at_terminal_state num_episodes
          ⟨fun _ _ => [], environment, 0, 0, 0⟩).returns = []
    · simp only [mc_exploring_starts, hnv, if_true]
      exact iff_of_true rfl (hchar.mp hnv)
    · simp only [mc_exploring_starts, hnv, if_false]
      exact iff_of_false (by simp [Except.isOk, Except.toBool]) (fun h => hnv (hchar.mpr h))
  refine ⟨hA, ?_, ?_⟩
  · intro nv hnv
    by_cases hempty : mc_es_not_visited environment.states environment.actions
        (mc_es_run π discount_factor max_steps_in_trajectory
          end_trajectory_at_terminal_state num_episodes
          ⟨fun _ _ => [], environment, 0, 0, 0⟩).returns = []
    · simp only [mc_exploring_starts, hempty, if_true] at hnv
      cases hnv
    · simp only [mc_exploring_starts, hempty, if_false, Except.error.injEq] at hnv
      rw [← hnv]
      exact hempty
  · intro hfuel hcount
    rw [hA]
    intro s hsmem a hamem
    have hSs : environment.states ≠ [] := List.ne_nil_of_mem hsmem
    have hAs : environment.actions ≠ [] := List.ne_nil_of_mem hamem
    obtain ⟨⟨i, hi⟩, hgi⟩ := List.mem_iff_get.mp hsmem
    obtain ⟨⟨jj, hjj⟩, hgj⟩ := List.mem_iff_get.mp hamem
    have hLA : 0 < environment.actions.length := List.length_pos.mpr hAs
    have hjlt : jj + i * environment.actions.length < num_episodes := by
      have h1 : jj + i * environment.actions.length
          < (i + 1) * environment.actions.length := by
        have : (i + 1) * environment.actions.length
            = i * environment.actions.length + environment.actions.length := by ring
        omega
      have h2 : (i + 1) * environment.actions.length
          ≤ environment.states.length * environment.actions.length :=
        Nat.mul_le_mul_right _ (by omega)
      omega
    apply mc_es_run_covers π discount_factor max_steps_in_trajectory
      end_trajectory_at_terminal_state environment.states environment.actions
      hfuel hSs hAs num_episodes 0 ⟨fun _ _ => [], environment, 0, 0, 0⟩
      (jj + i * environment.actions.length) s a rfl rfl rfl
      (Nat.zero_div _).symm hjlt
    · rw [Nat.zero_add, Nat.add_mul_div_right jj i hLA, Nat.div_eq_of_lt hjj,
        Nat.zero_add, Nat.mod_eq_of_lt hi, List.getElem?_eq_getElem hi,
        Option.some.injEq, ← List.get_eq_getElem environment.states ⟨i, hi⟩]
      exact hgi
    · rw [Nat.zero_add, Nat.add_mul_mod_self_right, Nat.mod_eq_of_lt hjj,
        List.getElem?_eq_getElem hjj, Option.some.injEq,
        ← List.get_eq_getElem environment.actions ⟨jj, hjj⟩]
      exact hgj

/-- Witness for C4 on the line world: `3 × 2 = 6` episodes with a
one-step budget — no unvisited-pair error is raised. -/
theorem c4_witness :
    (mc_exploring_starts (fun _ _ => 1) lineEnv (9/10) 6 1 true).isOk = true :=
  (c4_mc_exploring_starts_visitation (fun _ _ => 1) lineEnv (9/10) 6 1 true).2.2
    (by norm_num) (by decide)

end RL
